import Mathlib

/-!
Verification of the reconciliation core of ynab-sync (src/index.js).

The program reads a ledger of input records, normalizes them (short hash of
the id, integer compareAmount derived from the locale amount string), matches
them against the destination transaction list fetched from the budgeting app,
and classifies each record into changed / missing.  The matching core is the
function calcDiff; the planner that turns missing records into OFX creation
operations is ofxItem / generateOfx.

Embedding conventions:
  * JS strings are Lean String; operations that the source performs with
    regexes (replace of a leading minus, of the first dot, of all dashes) are
    embedded as explicit character-list functions.
  * JS parseInt never throws; on a string with no leading digits it returns
    NaN.  We model the result as Option Int, none standing for NaN.  NaN
    compares unequal to every number, which the model reflects because
    none is different from some n.
  * The external shorthash library (sh.unique) is not part of this
    repository; only its determinism matters, so every definition is
    parameterized by the hash function sh : String -> String.
  * The memo field of a destination transaction is Option String; the JS
    truthiness test on it (t.memo && ...) is false for null, undefined and
    for the empty string, which memoTruthy reflects.
-/

/-- JS whitespace characters skipped by parseInt. -/
def jsWhitespace (c : Char) : Bool :=
  c = ' ' || c = '\t' || c = '\n' || c = '\r'

/-- Numeric value of a list of decimal digit characters, most significant first. -/
def digitsVal (cs : List Char) : Nat :=
  cs.foldl (fun n c => 10 * n + (c.toNat - 48)) 0

/-- Embedding of JS parseInt with radix 10 on the strings this program feeds
it: skip leading whitespace, an optional sign, then read the maximal leading
run of decimal digits; none (NaN) when that run is empty.  The hexadecimal
0x branch of parseInt cannot be reached by the amount strings in scope. -/
def jsParseIntAux : List Char → Option Int
  | [] => none
  | c :: rest =>
    let p : Int × List Char :=
      if c = '-' then (-1, rest) else if c = '+' then (1, rest) else (1, c :: rest)
    let ds := p.2.takeWhile Char.isDigit
    if ds.isEmpty then none else some (p.1 * (digitsVal ds : Int))

def jsParseInt (s : String) : Option Int :=
  jsParseIntAux (s.data.dropWhile jsWhitespace)

/-- List-level removal of one leading minus sign. -/
def stripMinusAux : List Char → List Char
  | '-' :: rest => rest
  | l => l

/-- amount.replace applied with the regex matching one leading minus sign. -/
def stripLeadingMinus (s : String) : String :=
  ⟨stripMinusAux s.data⟩

/-- Remove the first occurrence of a character from a list. -/
def removeFirstOcc (ch : Char) : List Char → List Char
  | [] => []
  | c :: rest => if c = ch then rest else c :: removeFirstOcc ch rest

/-- amount.replace applied with the non-global dot regex: only the FIRST dot
of the string is removed. -/
def removeFirstDot (s : String) : String :=
  ⟨removeFirstOcc '.' s.data⟩

/-- date.replace applied with the global dash regex: every dash removed. -/
def removeAllDashes (s : String) : String :=
  ⟨s.data.filter (fun c => c ≠ '-')⟩

/-- List version of JS String.startsWith. -/
def listStartsWith : List Char → List Char → Bool
  | _, [] => true
  | [], _ :: _ => false
  | a :: as, b :: bs => (a = b) && listStartsWith as bs

/-- JS s.startsWith(pre). -/
def strStartsWith (s pre : String) : Bool :=
  listStartsWith s.data pre.data

/-- Does hay contain needle as a contiguous subsequence? -/
def listContainsSeq (needle : List Char) : List Char → Bool
  | [] => needle.isEmpty
  | c :: rest => listStartsWith (c :: rest) needle || listContainsSeq needle rest

/-- JS hay.includes(needle). -/
def strIncludes (hay needle : String) : Bool :=
  listContainsSeq needle.data hay.data

/-- compareAmount of calcDiff:
parseInt(amount.replace(leading minus, empty).replace(first dot, empty)) * 10,
then multiplied by 1 when the amount string starts with a minus sign and by
-1 otherwise.  none models the NaN produced by parseInt on a malformed
remainder; NaN times anything stays NaN. -/
def compareAmount (amount : String) : Option Int :=
  (jsParseInt (removeFirstDot (stripLeadingMinus amount))).map
    (fun v => (if strStartsWith amount "-" then 1 else -1) * (v * 10))

/-- The date sub-object of an input record; the source reads date.date. -/
structure DateObj where
  date : String
deriving Repr, DecidableEq

/-- A record of the input ledger file. -/
structure InputRecord where
  id : String
  date : DateObj
  amount : String
  title : String
deriving Repr, DecidableEq

/-- A destination transaction from the be_transactions payload. -/
structure RawTxn where
  id : String
  date : String
  amount : Int
  memo : Option String
  entities_account_id : String
deriving Repr, DecidableEq

/-- An account from the be_accounts payload. -/
structure Account where
  account_name : String
  id : String
deriving Repr, DecidableEq

/-- The working representation calcDiff builds from an input record. -/
structure NormRecord where
  id : String
  date : String
  amount : String
  title : String
  shortId : String
  compareAmount : Option Int
  original : Option RawTxn
deriving Repr, DecidableEq

/-- The input.map step of calcDiff: keep id / amount / title, flatten
date.date, derive shortId with the hash and compareAmount from the amount
string.  The original field does not exist yet, modelled as none. -/
def normalizeRecord (sh : String → String) (r : InputRecord) : NormRecord :=
  { id := r.id
    date := r.date.date
    amount := r.amount
    title := r.title
    shortId := sh r.id
    compareAmount := compareAmount r.amount
    original := none }

/-- The hardcoded relevance filter of calcDiff:
i.date.startsWith(2018) || i.date.startsWith(2017). -/
def dateFilterPass (i : NormRecord) : Bool :=
  strStartsWith i.date "2018" || strStartsWith i.date "2017"

/-- Equality match test of calcDiff: i.date === t.date and
i.compareAmount === t.amount.  A NaN compareAmount (none) never matches. -/
def eqMatch (i : NormRecord) (t : RawTxn) : Bool :=
  (i.date = t.date) && (i.compareAmount = some t.amount)

/-- JS truthiness of the memo field: null, undefined and the empty string
are falsy. -/
def memoTruthy : Option String → Bool
  | none => false
  | some m => m ≠ ""

/-- Fingerprint match test of calcDiff:
t.memo && t.memo.includes(hash mark ++ i.shortId). -/
def fpMatch (i : NormRecord) (t : RawTxn) : Bool :=
  match t.memo with
  | none => false
  | some m => (m ≠ "") && strIncludes m ("#" ++ i.shortId)

/-- Normalized input restricted by the year filter, before matching. -/
def dateFilteredOf (sh : String → String) (input : List InputRecord) :
    List NormRecord :=
  (input.map (normalizeRecord sh)).filter dateFilterPass

/-- The different list of calcDiff: date-filtered records with no equality
match, each augmented in place with original := the first fingerprint match
(or none). -/
def differentOf (sh : String → String) (input : List InputRecord)
    (transactions : List RawTxn) : List NormRecord :=
  ((dateFilteredOf sh input).filter
      (fun i => (transactions.find? (eqMatch i)).isNone)).map
    (fun i => { i with original := transactions.find? (fpMatch i) })

/-- changed = different.filter(i => i.original). -/
def changedOf (sh : String → String) (input : List InputRecord)
    (transactions : List RawTxn) : List NormRecord :=
  (differentOf sh input transactions).filter (fun i => i.original.isSome)

/-- missing = different.filter(i => !i.original). -/
def missingOf (sh : String → String) (input : List InputRecord)
    (transactions : List RawTxn) : List NormRecord :=
  (differentOf sh input transactions).filter (fun i => i.original.isNone)

/-- Runtime failures calcDiff can raise.  The source defines no dedicated
AccountNotFound error: when the account lookup yields undefined, the later
property access account.id throws a plain TypeError that carries no list of
available account names. -/
inductive CalcError where
  | typeError (msg : String)
deriving Repr, DecidableEq

/-- calcDiff of the source.  The JSON plumbing that digs be_accounts and
be_transactions out of the recorded HTTP responses is passed in already
extracted; the Puppeteer side file write is I/O and not part of the value
computed.  When the account find yields undefined the function aborts with
the TypeError thrown by account.id before any classification output
exists. -/
def calcDiff (sh : String → String) (accountName : String)
    (input : List InputRecord) (accounts : List Account)
    (be_transactions : List RawTxn) :
    Except CalcError (List NormRecord × List NormRecord) :=
  match accounts.find? (fun a => a.account_name = accountName) with
  | none => .error (.typeError "Cannot read property id of undefined")
  | some account =>
    let transactions :=
      be_transactions.filter (fun t => t.entities_account_id = account.id)
    .ok (changedOf sh input transactions, missingOf sh input transactions)

/-- The fields of one STMTTRN block emitted by ofxItem.  The TRNAMT value is
the JS numeric coercion amount * -1 of the original amount string, an IEEE
float outside this integer embedding; the raw string is kept instead.  The
claims under check concern the MEMO and FITID fields only. -/
structure StmtTrn where
  trnType : String
  dtPosted : String
  amountStr : String
  fitId : String
  memo : String
deriving Repr, DecidableEq

/-- ofxItem of the source: one creation operation per record.  The memo is
the hash mark, the short hash of the id, a spaced dash, then the title when
detailed is set, and just the title otherwise; FITID carries the record id
as import fingerprint. -/
def ofxItem (sh : String → String) (itemData : NormRecord) (detailed : Bool) :
    StmtTrn :=
  let shortid := sh itemData.id
  { trnType := "DEBIT"
    dtPosted := removeAllDashes itemData.date ++ "000000[-3:GMT]"
    amountStr := itemData.amount
    fitId := itemData.id
    memo := if detailed then "#" ++ shortid ++ " - " ++ itemData.title
            else itemData.title }

/-- generateOfx maps ofxItem over the charges; the surrounding OFX envelope
is a fixed text wrapper with no per-record content. -/
def generateOfxItems (sh : String → String) (charges : List NormRecord)
    (detailed : Bool) : List StmtTrn :=
  charges.map (fun i => ofxItem sh i detailed)


/-! ## Helper lemmas about the character-level functions -/

theorem digit_ne {c : Char} (h : c.isDigit = true) {d : Char}
    (hd : d.isDigit = false) : c ≠ d := by
  intro he
  rw [he, hd] at h
  exact Bool.false_ne_true h

theorem digit_not_ws {c : Char} (h : c.isDigit = true) : jsWhitespace c = false := by
  have h1 : c ≠ ' ' := digit_ne h (by decide)
  have h2 : c ≠ '\t' := digit_ne h (by decide)
  have h3 : c ≠ '\n' := digit_ne h (by decide)
  have h4 : c ≠ '\r' := digit_ne h (by decide)
  simp [jsWhitespace, h1, h2, h3, h4]

theorem takeWhile_append_of_all {p : Char → Bool} :
    ∀ {l₁ l₂ : List Char}, (∀ c ∈ l₁, p c = true) →
      (l₁ ++ l₂).takeWhile p = l₁ ++ l₂.takeWhile p := by
  intro l₁
  induction l₁ with
  | nil => intro l₂ _; rfl
  | cons c cs ih =>
    intro l₂ h
    have hc : p c = true := h c (by simp)
    simp [List.takeWhile_cons, hc, ih (fun d hd => h d (by simp [hd]))]

theorem removeFirstOcc_append {ch : Char} :
    ∀ {l₁ l₂ : List Char}, (∀ c ∈ l₁, c ≠ ch) →
      removeFirstOcc ch (l₁ ++ ch :: l₂) = l₁ ++ l₂ := by
  intro l₁
  induction l₁ with
  | nil => intro l₂ _; simp [removeFirstOcc]
  | cons c cs ih =>
    intro l₂ h
    have hc : c ≠ ch := h c (by simp)
    simp only [List.cons_append, removeFirstOcc, if_neg hc]
    exact congrArg (List.cons c) (ih (fun d hd => h d (by simp [hd])))

theorem jsParseInt_digits_append {ds : List Char} (hne : ds ≠ [])
    (hd : ∀ c ∈ ds, c.isDigit = true) {tail : List Char}
    (htail : ∀ c, tail.head? = some c → c.isDigit = false) :
    jsParseInt ⟨ds ++ tail⟩ = some ((digitsVal ds : Int)) := by
  obtain ⟨c, cs, rfl⟩ : ∃ c cs, ds = c :: cs := by
    cases ds with
    | nil => exact absurd rfl hne
    | cons c cs => exact ⟨c, cs, rfl⟩
  have hc : c.isDigit = true := hd c (by simp)
  have hws : jsWhitespace c = false := digit_not_ws hc
  have hm : c ≠ '-' := digit_ne hc (by decide)
  have hp : c ≠ '+' := digit_ne hc (by decide)
  have htw : List.takeWhile Char.isDigit (c :: (cs ++ tail)) = c :: cs := by
    have h1 := @takeWhile_append_of_all Char.isDigit (c :: cs) tail hd
    have h2 : tail.takeWhile Char.isDigit = [] := by
      cases tail with
      | nil => rfl
      | cons t rest =>
        have ht : t.isDigit = false := htail t rfl
        simp [List.takeWhile_cons, ht]
    rw [List.cons_append] at h1
    rw [h1, h2, List.append_nil]
  have hdw : List.dropWhile jsWhitespace (c :: (cs ++ tail)) = c :: (cs ++ tail) := by
    simp [List.dropWhile_cons, hws]
  have hdata : (⟨(c :: cs) ++ tail⟩ : String).data = c :: (cs ++ tail) := by
    simp
  unfold jsParseInt
  rw [hdata, hdw]
  simp only [jsParseIntAux, if_neg hm, if_neg hp, htw]
  simp

theorem jsParseInt_digits {ds : List Char} (hne : ds ≠ [])
    (hd : ∀ c ∈ ds, c.isDigit = true) :
    jsParseInt ⟨ds⟩ = some ((digitsVal ds : Int)) := by
  have h := @jsParseInt_digits_append ds hne hd [] (fun c hc => by simp at hc)
  simpa using h

theorem stripMinusAux_of_ne {c : Char} (cs : List Char) (hc : c ≠ '-') :
    stripMinusAux (c :: cs) = c :: cs := by
  unfold stripMinusAux
  split
  · rename_i rest heq
    injection heq with h1 h2
    exact absurd h1 hc
  · rfl

theorem stripLeadingMinus_eval (neg : Bool) (c : Char) (cs : List Char)
    (hc : c ≠ '-') :
    stripLeadingMinus ⟨(if neg then ['-'] else []) ++ (c :: cs)⟩ = ⟨c :: cs⟩ := by
  cases neg with
  | true => rfl
  | false =>
    show stripLeadingMinus ⟨c :: cs⟩ = ⟨c :: cs⟩
    unfold stripLeadingMinus
    rw [show (⟨c :: cs⟩ : String).data = c :: cs from rfl, stripMinusAux_of_ne cs hc]

theorem listStartsWith_single_ne {c d : Char} (cs : List Char) (hc : c ≠ d) :
    listStartsWith (c :: cs) [d] = false := by
  simp [listStartsWith, hc]

theorem strStartsWith_minus_eval (neg : Bool) (c : Char) (cs : List Char)
    (hc : c ≠ '-') :
    strStartsWith ⟨(if neg then ['-'] else []) ++ (c :: cs)⟩ "-" = neg := by
  cases neg with
  | true => rfl
  | false =>
    show listStartsWith (c :: cs) ['-'] = false
    exact listStartsWith_single_ne cs hc

theorem tag_data (s : String) : ("#" ++ s).data = '#' :: s.data := by
  rw [String.data_append]
  rfl

theorem strIncludes_empty_tag (s : String) : strIncludes "" ("#" ++ s) = false := by
  show listContainsSeq ("#" ++ s).data [] = false
  rw [show listContainsSeq ("#" ++ s).data [] = (("#" ++ s).data).isEmpty from rfl]
  rw [tag_data]
  rfl

/-! ## Helper lemmas about find? and the classification lists -/

theorem find?_isSome_of_mem {α : Type} {p : α → Bool} :
    ∀ {l : List α} {a : α}, a ∈ l → p a = true → ∃ u, l.find? p = some u := by
  intro l
  induction l with
  | nil => intro a ha _; cases ha
  | cons b bs ih =>
    intro a ha hp
    by_cases hb : p b = true
    · exact ⟨b, List.find?_cons_of_pos bs hb⟩
    · rcases List.mem_cons.mp ha with h | h
      · exact absurd (h ▸ hp) hb
      · obtain ⟨u, hu⟩ := ih h hp
        refine ⟨u, ?_⟩
        rw [List.find?_cons_of_neg bs hb, hu]

theorem find?_first_decomp {α : Type} {p : α → Bool} :
    ∀ {l : List α} {a : α}, l.find? p = some a →
      ∃ l₁ l₂, l = l₁ ++ a :: l₂ ∧ (∀ x ∈ l₁, p x = false) ∧ p a = true := by
  intro l
  induction l with
  | nil => intro a h; simp [List.find?] at h
  | cons b bs ih =>
    intro a h
    by_cases hb : p b = true
    · rw [List.find?_cons_of_pos bs hb] at h
      injection h with h1
      refine ⟨[], bs, by simp [h1], ?_, h1 ▸ hb⟩
      intro x hx
      cases hx
    · rw [List.find?_cons_of_neg bs hb] at h
      obtain ⟨l₁, l₂, heq, hall, hpa⟩ := ih h
      refine ⟨b :: l₁, l₂, by rw [heq]; rfl, ?_, hpa⟩
      intro x hx
      rcases List.mem_cons.mp hx with h1 | h1
      · rw [h1]
        exact Bool.eq_false_iff.mpr hb
      · exact hall x h1

theorem original_none_of_mem_dateFiltered {sh : String → String}
    {input : List InputRecord} {y : NormRecord}
    (hy : y ∈ dateFilteredOf sh input) : y.original = none := by
  obtain ⟨hy1, -⟩ := List.mem_filter.mp hy
  obtain ⟨r, -, hr⟩ := List.mem_map.mp hy1
  rw [← hr]
  rfl

theorem mem_dateFiltered_of {sh : String → String} {input : List InputRecord}
    {r : InputRecord} (hr : r ∈ input)
    (hdate : dateFilterPass (normalizeRecord sh r) = true) :
    normalizeRecord sh r ∈ dateFilteredOf sh input :=
  List.mem_filter.mpr ⟨List.mem_map.mpr ⟨r, hr, rfl⟩, hdate⟩

theorem mem_differentOf_iff {sh : String → String} {input : List InputRecord}
    {ts : List RawTxn} {x : NormRecord} :
    x ∈ differentOf sh input ts ↔
      ∃ y, y ∈ dateFilteredOf sh input ∧ ts.find? (eqMatch y) = none ∧
        x = { y with original := ts.find? (fpMatch y) } := by
  unfold differentOf
  constructor
  · intro hx
    obtain ⟨y, hy, hxy⟩ := List.mem_map.mp hx
    obtain ⟨hy1, hy2⟩ := List.mem_filter.mp hy
    exact ⟨y, hy1, Option.isNone_iff_eq_none.mp hy2, hxy.symm⟩
  · rintro ⟨y, hy1, hy2, rfl⟩
    exact List.mem_map.mpr
      ⟨y, List.mem_filter.mpr ⟨hy1, Option.isNone_iff_eq_none.mpr hy2⟩, rfl⟩

theorem update_original_inj {y z : NormRecord} {a b : Option RawTxn}
    (hy : y.original = none) (hz : z.original = none)
    (h : ({ y with original := a } : NormRecord) = { z with original := b }) :
    y = z ∧ a = b := by
  cases y
  cases z
  simp only [NormRecord.mk.injEq] at h ⊢
  simp_all

theorem update_original_cancel {y : NormRecord} (hy : y.original = none)
    {o : Option RawTxn} :
    ({ { y with original := o } with original := none } : NormRecord) = y := by
  cases y
  simp_all

theorem mem_differentOf_of_mem_changed {sh : String → String}
    {input : List InputRecord} {ts : List RawTxn} {x : NormRecord}
    (hx : x ∈ changedOf sh input ts) : x ∈ differentOf sh input ts := by
  unfold changedOf at hx
  exact (List.mem_filter.mp hx).1

theorem mem_differentOf_of_mem_missing {sh : String → String}
    {input : List InputRecord} {ts : List RawTxn} {x : NormRecord}
    (hx : x ∈ missingOf sh input ts) : x ∈ differentOf sh input ts := by
  unfold missingOf at hx
  exact (List.mem_filter.mp hx).1

theorem eqMatch_true_of {i : NormRecord} {t : RawTxn} (hdate : i.date = t.date)
    (hamt : i.compareAmount = some t.amount) : eqMatch i t = true := by
  simp [eqMatch, hdate, hamt]

theorem eqMatch_false_of_none {i : NormRecord} (h : i.compareAmount = none)
    (t : RawTxn) : eqMatch i t = false := by
  simp [eqMatch, h]

theorem fpMatch_true_of {i : NormRecord} {t : RawTxn} {m : String}
    (hm : t.memo = some m) (htag : strIncludes m ("#" ++ i.shortId) = true) :
    fpMatch i t = true := by
  have hne : m ≠ "" := by
    intro h
    rw [h, strIncludes_empty_tag] at htag
    exact Bool.false_ne_true htag
  unfold fpMatch
  rw [hm]
  simp [hne, htag]

theorem fpMatch_false_elim {i : NormRecord} {t : RawTxn}
    (h : fpMatch i t = false) {m : String} (hm : t.memo = some m) :
    strIncludes m ("#" ++ i.shortId) = false := by
  by_cases hme : m = ""
  · rw [hme]
    exact strIncludes_empty_tag _
  · unfold fpMatch at h
    rw [hm] at h
    simpa [hme] using h

/-! ## Claim theorems -/

/-- C4: for every locale amount string built from an optional minus sign,
a nonempty digit group, one dot separator and a nonempty digit group, the
computed compareAmount is the signed integer whose magnitude is the value of
the digits with the separator removed times ten, positive when the minus
sign was present and negative otherwise. -/
theorem amount_normalization_signed (neg : Bool) (ds₁ ds₂ : List Char)
    (h₁ : ds₁ ≠ []) (h₂ : ds₂ ≠ [])
    (hd₁ : ∀ c ∈ ds₁, c.isDigit = true) (hd₂ : ∀ c ∈ ds₂, c.isDigit = true) :
    compareAmount ⟨(if neg then ['-'] else []) ++ ds₁ ++ '.' :: ds₂⟩
      = some ((if neg then 1 else -1) * ((digitsVal (ds₁ ++ ds₂) : Int) * 10)) := by
  obtain ⟨c, cs, rfl⟩ : ∃ c cs, ds₁ = c :: cs := by
    cases ds₁ with
    | nil => exact absurd rfl h₁
    | cons c cs => exact ⟨c, cs, rfl⟩
  have hc : c.isDigit = true := hd₁ c (by simp)
  have hcm : c ≠ '-' := digit_ne hc (by decide)
  have hshape : (if neg then ['-'] else []) ++ (c :: cs) ++ '.' :: ds₂
      = (if neg then ['-'] else []) ++ (c :: (cs ++ '.' :: ds₂)) := by
    simp [List.append_assoc]
  unfold compareAmount
  rw [hshape]
  rw [stripLeadingMinus_eval neg c (cs ++ '.' :: ds₂) hcm]
  have hnodot : ∀ d ∈ c :: cs, d ≠ '.' :=
    fun d hd => digit_ne (hd₁ d hd) (by decide)
  have hrfd : removeFirstDot ⟨c :: (cs ++ '.' :: ds₂)⟩ = ⟨(c :: cs) ++ ds₂⟩ := by
    unfold removeFirstDot
    have h := @removeFirstOcc_append '.' (c :: cs) ds₂ hnodot
    rw [List.cons_append] at h
    rw [show (⟨c :: (cs ++ '.' :: ds₂)⟩ : String).data = c :: (cs ++ '.' :: ds₂) from rfl]
    rw [h]
  rw [hrfd]
  have hall : ∀ d ∈ (c :: cs) ++ ds₂, d.isDigit = true := by
    intro d hd
    rcases List.mem_append.mp hd with h | h
    · exact hd₁ d h
    · exact hd₂ d h
  rw [jsParseInt_digits (by simp) hall]
  rw [strStartsWith_minus_eval neg c (cs ++ '.' :: ds₂) hcm]
  rfl

/-- Witness for C4 at the concrete amount string -1.234, which normalizes
to compareAmount 12340. -/
theorem amount_normalization_signed_witness :
    (['1'] : List Char) ≠ [] ∧ (['2', '3', '4'] : List Char) ≠ []
    ∧ (∀ c ∈ ['1'], c.isDigit = true) ∧ (∀ c ∈ (['2', '3', '4'] : List Char), c.isDigit = true)
    ∧ compareAmount ⟨(if true then ['-'] else []) ++ ['1'] ++ '.' :: ['2', '3', '4']⟩
        = some ((if true then 1 else -1) * ((digitsVal (['1'] ++ ['2', '3', '4']) : Int) * 10)) :=
  ⟨by decide, by decide, by decide, by decide,
   amount_normalization_signed true ['1'] ['2', '3', '4']
     (by decide) (by decide) (by decide) (by decide)⟩

/-- C10: the dot regex of the normalizer is not global, so only the first
dot is removed; the integer parse then stops at the second dot and the
characters after it are dropped silently instead of failing.  For an amount
of the shape digits, dot, digits, dot, anything, compareAmount is the value
of the first two digit groups joined, times ten, with the usual sign flip. -/
theorem single_separator_removal (neg : Bool) (ds₁ ds₂ rest : List Char)
    (h₁ : ds₁ ≠ []) (h₂ : ds₂ ≠ [])
    (hd₁ : ∀ c ∈ ds₁, c.isDigit = true) (hd₂ : ∀ c ∈ ds₂, c.isDigit = true) :
    compareAmount ⟨(if neg then ['-'] else []) ++ ds₁ ++ '.' :: ds₂ ++ '.' :: rest⟩
      = some ((if neg then 1 else -1) * ((digitsVal (ds₁ ++ ds₂) : Int) * 10)) := by
  obtain ⟨c, cs, rfl⟩ : ∃ c cs, ds₁ = c :: cs := by
    cases ds₁ with
    | nil => exact absurd rfl h₁
    | cons c cs => exact ⟨c, cs, rfl⟩
  have hc : c.isDigit = true := hd₁ c (by simp)
  have hcm : c ≠ '-' := digit_ne hc (by decide)
  have hshape : (if neg then ['-'] else []) ++ (c :: cs) ++ '.' :: ds₂ ++ '.' :: rest
      = (if neg then ['-'] else []) ++ (c :: (cs ++ '.' :: (ds₂ ++ '.' :: rest))) := by
    simp [List.append_assoc]
  unfold compareAmount
  rw [hshape]
  rw [stripLeadingMinus_eval neg c (cs ++ '.' :: (ds₂ ++ '.' :: rest)) hcm]
  have hnodot : ∀ d ∈ c :: cs, d ≠ '.' :=
    fun d hd => digit_ne (hd₁ d hd) (by decide)
  have hrfd : removeFirstDot ⟨c :: (cs ++ '.' :: (ds₂ ++ '.' :: rest))⟩
      = ⟨((c :: cs) ++ ds₂) ++ '.' :: rest⟩ := by
    unfold removeFirstDot
    have h := @removeFirstOcc_append '.' (c :: cs) (ds₂ ++ '.' :: rest) hnodot
    rw [List.cons_append] at h
    rw [show (⟨c :: (cs ++ '.' :: (ds₂ ++ '.' :: rest))⟩ : String).data
          = c :: (cs ++ '.' :: (ds₂ ++ '.' :: rest)) from rfl]
    rw [h]
    rw [← List.append_assoc]
  rw [hrfd]
  have hall : ∀ d ∈ (c :: cs) ++ ds₂, d.isDigit = true := by
    intro d hd
    rcases List.mem_append.mp hd with h | h
    · exact hd₁ d h
    · exact hd₂ d h
  rw [jsParseInt_digits_append (by simp) hall (fun d hd => by injection hd with h1; rw [← h1]; decide)]
  rw [strStartsWith_minus_eval neg c (cs ++ '.' :: (ds₂ ++ '.' :: rest)) hcm]
  rfl

/-- Witness for C10 at the amount string 1.234.56: compareAmount is -12340,
the digits after the second dot are dropped. -/
theorem single_separator_removal_witness :
    (['1'] : List Char) ≠ [] ∧ (['2', '3', '4'] : List Char) ≠ []
    ∧ (∀ c ∈ ['1'], c.isDigit = true) ∧ (∀ c ∈ (['2', '3', '4'] : List Char), c.isDigit = true)
    ∧ compareAmount ⟨(if false then ['-'] else []) ++ ['1'] ++ '.' :: ['2', '3', '4'] ++ '.' :: ['5', '6']⟩
        = some ((if false then 1 else -1) * ((digitsVal (['1'] ++ ['2', '3', '4']) : Int) * 10)) :=
  ⟨by decide, by decide, by decide, by decide,
   single_separator_removal false ['1'] ['2', '3', '4'] ['5', '6']
     (by decide) (by decide) (by decide) (by decide)⟩

/-- C1: when some destination transaction of the relevant account has the
same ISO date string as the normalized record and the same integer amount as
its compareAmount, the record appears in neither changed nor missing,
whatever the fingerprint content of the other memos.  The quantification
over the original field covers every image the record could have in the
output lists. -/
theorem eq_match_precedence (sh : String → String) (input : List InputRecord)
    (ts : List RawTxn) (r : InputRecord) (t : RawTxn) (ht : t ∈ ts)
    (hdate : (normalizeRecord sh r).date = t.date)
    (hamt : (normalizeRecord sh r).compareAmount = some t.amount)
    (o : Option RawTxn) :
    ({ normalizeRecord sh r with original := o } : NormRecord) ∉ changedOf sh input ts
    ∧ ({ normalizeRecord sh r with original := o } : NormRecord) ∉ missingOf sh input ts := by
  have hkey : ({ normalizeRecord sh r with original := o } : NormRecord)
      ∉ differentOf sh input ts := by
    intro hx
    obtain ⟨y, hyF, hyN, hxeq⟩ := mem_differentOf_iff.mp hx
    have hyo : y.original = none := original_none_of_mem_dateFiltered hyF
    have hno : (normalizeRecord sh r).original = none := rfl
    obtain ⟨hyr, -⟩ := update_original_inj hno hyo hxeq
    rw [← hyr] at hyN
    exact (List.find?_eq_none.mp hyN t ht) (eqMatch_true_of hdate hamt)
  exact ⟨fun hx => hkey (mem_differentOf_of_mem_changed hx),
         fun hx => hkey (mem_differentOf_of_mem_missing hx)⟩

def c1R : InputRecord := ⟨"a1", ⟨"2018-03-01"⟩, "12.34", "Lunch"⟩

def c1T : RawTxn := ⟨"d1", "2018-03-01", -12340, some "note", "A"⟩

def c1Tag : RawTxn := ⟨"d2", "2018-01-01", 77, some "#a1 coincidence", "A"⟩

/-- Witness for C1: the destination holds an equality match and a second
transaction whose memo carries the fingerprint tag of the record; the record
still reaches neither output list. -/
theorem eq_match_precedence_witness :
    c1T ∈ [c1T, c1Tag]
    ∧ (normalizeRecord (fun s => s) c1R).date = c1T.date
    ∧ (normalizeRecord (fun s => s) c1R).compareAmount = some c1T.amount
    ∧ (({ normalizeRecord (fun s => s) c1R with original := none } : NormRecord)
          ∉ changedOf (fun s => s) [c1R] [c1T, c1Tag]
       ∧ ({ normalizeRecord (fun s => s) c1R with original := none } : NormRecord)
          ∉ missingOf (fun s => s) [c1R] [c1T, c1Tag]) :=
  ⟨by decide, by decide, by decide,
   eq_match_precedence (fun s => s) [c1R] [c1T, c1Tag] c1R c1T
     (by decide) (by decide) (by decide) none⟩

/-- C2: a date-filtered record with no equality match whose fingerprint tag
occurs in at least one destination memo lands in changed, and its original
field holds the FIRST transaction in destination list order whose memo
contains the tag; no earlier transaction contains it. -/
theorem fingerprint_recovery (sh : String → String) (input : List InputRecord)
    (ts : List RawTxn) (r : InputRecord) (hr : r ∈ input)
    (hdate : dateFilterPass (normalizeRecord sh r) = true)
    (hnoeq : ∀ t ∈ ts, eqMatch (normalizeRecord sh r) t = false)
    (t : RawTxn) (ht : t ∈ ts) (m : String) (hm : t.memo = some m)
    (htag : strIncludes m ("#" ++ (normalizeRecord sh r).shortId) = true) :
    ∃ u l₁ l₂, ts = l₁ ++ u :: l₂
      ∧ (∀ v ∈ l₁, ∀ mv, v.memo = some mv →
          strIncludes mv ("#" ++ (normalizeRecord sh r).shortId) = false)
      ∧ (∃ mu, u.memo = some mu
          ∧ strIncludes mu ("#" ++ (normalizeRecord sh r).shortId) = true)
      ∧ ({ normalizeRecord sh r with original := some u } : NormRecord)
          ∈ changedOf sh input ts := by
  have hfp : fpMatch (normalizeRecord sh r) t = true := fpMatch_true_of hm htag
  obtain ⟨u, hu⟩ := find?_isSome_of_mem ht hfp
  obtain ⟨l₁, l₂, hts, hall, hpu⟩ := find?_first_decomp hu
  refine ⟨u, l₁, l₂, hts, ?_, ?_, ?_⟩
  · intro v hv mv hmv
    exact fpMatch_false_elim (hall v hv) hmv
  · cases hmu : u.memo with
    | none =>
      unfold fpMatch at hpu
      rw [hmu] at hpu
      cases hpu
    | some mu =>
      refine ⟨mu, rfl, ?_⟩
      unfold fpMatch at hpu
      rw [hmu] at hpu
      simp only [Bool.and_eq_true] at hpu
      exact hpu.2
  · have hmemD : ({ normalizeRecord sh r with
          original := ts.find? (fpMatch (normalizeRecord sh r)) } : NormRecord)
        ∈ differentOf sh input ts :=
      mem_differentOf_iff.mpr
        ⟨normalizeRecord sh r, mem_dateFiltered_of hr hdate,
         List.find?_eq_none.mpr (fun a ha => by simp [hnoeq a ha]), rfl⟩
    rw [hu] at hmemD
    unfold changedOf
    exact List.mem_filter.mpr ⟨hmemD, rfl⟩

def c2R : InputRecord := ⟨"b1", ⟨"2018-05-05"⟩, "20.00", "t"⟩

def c2T : RawTxn := ⟨"d9", "2018-05-06", -2000, some "#b1", "A"⟩

/-- Witness for C2: a record dated 2018-05-05 with no equality match is
recovered through the memo tag of transaction d9. -/
theorem fingerprint_recovery_witness :
    c2R ∈ [c2R]
    ∧ dateFilterPass (normalizeRecord (fun s => s) c2R) = true
    ∧ (∀ t ∈ [c2T], eqMatch (normalizeRecord (fun s => s) c2R) t = false)
    ∧ c2T ∈ [c2T]
    ∧ c2T.memo = some "#b1"
    ∧ strIncludes "#b1" ("#" ++ (normalizeRecord (fun s => s) c2R).shortId) = true
    ∧ (∃ u l₁ l₂, [c2T] = l₁ ++ u :: l₂
        ∧ (∀ v ∈ l₁, ∀ mv, v.memo = some mv →
            strIncludes mv ("#" ++ (normalizeRecord (fun s => s) c2R).shortId) = false)
        ∧ (∃ mu, u.memo = some mu
            ∧ strIncludes mu ("#" ++ (normalizeRecord (fun s => s) c2R).shortId) = true)
        ∧ ({ normalizeRecord (fun s => s) c2R with original := some u } : NormRecord)
            ∈ changedOf (fun s => s) [c2R] [c2T]) :=
  ⟨by decide, by decide, by decide, by decide, rfl, by decide,
   fingerprint_recovery (fun s => s) [c2R] [c2T] c2R (by decide) (by decide)
     (by decide) c2T (by decide) "#b1" rfl (by decide)⟩

/-- C3: changed and missing are the sub-lists of different with populated
and with absent original field, they are disjoint, every element of
different is in exactly one of them, and every member of either list is,
after clearing the original field added during matching, an element of the
date-filtered normalized input. -/
theorem reconcile_partition (sh : String → String) (input : List InputRecord)
    (ts : List RawTxn) (x : NormRecord) :
    (x ∈ changedOf sh input ts ↔ x ∈ differentOf sh input ts ∧ x.original.isSome = true)
    ∧ (x ∈ missingOf sh input ts ↔ x ∈ differentOf sh input ts ∧ x.original.isNone = true)
    ∧ ¬(x ∈ changedOf sh input ts ∧ x ∈ missingOf sh input ts)
    ∧ (x ∈ differentOf sh input ts → x ∈ changedOf sh input ts ∨ x ∈ missingOf sh input ts)
    ∧ ((x ∈ changedOf sh input ts ∨ x ∈ missingOf sh input ts) →
        ({ x with original := none } : NormRecord) ∈ dateFilteredOf sh input) := by
  have hc : x ∈ changedOf sh input ts
      ↔ x ∈ differentOf sh input ts ∧ x.original.isSome = true := by
    unfold changedOf
    exact List.mem_filter
  have hm : x ∈ missingOf sh input ts
      ↔ x ∈ differentOf sh input ts ∧ x.original.isNone = true := by
    unfold missingOf
    exact List.mem_filter
  refine ⟨hc, hm, ?_, ?_, ?_⟩
  · rintro ⟨h1, h2⟩
    have hs := (hc.mp h1).2
    have hn := (hm.mp h2).2
    rw [Option.isNone_iff_eq_none] at hn
    rw [hn] at hs
    cases hs
  · intro hd
    cases ho : x.original with
    | none => exact Or.inr (hm.mpr ⟨hd, by rw [ho]; rfl⟩)
    | some u => exact Or.inl (hc.mpr ⟨hd, by rw [ho]; rfl⟩)
  · intro hx
    have hd : x ∈ differentOf sh input ts := by
      cases hx with
      | inl h => exact (hc.mp h).1
      | inr h => exact (hm.mp h).1
    obtain ⟨y, hyF, -, rfl⟩ := mem_differentOf_iff.mp hd
    rw [update_original_cancel (original_none_of_mem_dateFiltered hyF)]
    exact hyF

def c3R : InputRecord := ⟨"w3", ⟨"2018-06-01"⟩, "5.00", "t"⟩

/-- Witness for C3: with one record and an empty destination list, the
record is missing and, by disjointness, not changed. -/
theorem reconcile_partition_witness :
    normalizeRecord (fun s => s) c3R ∈ missingOf (fun s => s) [c3R] []
    ∧ normalizeRecord (fun s => s) c3R ∉ changedOf (fun s => s) [c3R] [] := by
  have hmem : normalizeRecord (fun s => s) c3R ∈ missingOf (fun s => s) [c3R] [] := by
    decide
  refine ⟨hmem, fun hcm => ?_⟩
  exact (reconcile_partition (fun s => s) [c3R] []
    (normalizeRecord (fun s => s) c3R)).2.2.1 ⟨hcm, hmem⟩

def c5Input : List InputRecord :=
  [⟨"a1", ⟨"2018-03-01"⟩, "50.00", "t1"⟩, ⟨"a2", ⟨"2019-01-01"⟩, "10.00", "t2"⟩]

def c5A1Norm (sh : String → String) : NormRecord :=
  { id := "a1", date := "2018-03-01", amount := "50.00", title := "t1",
    shortId := sh "a1", compareAmount := some (-50000), original := none }

/-- Counterexample for C5 as stated: against the empty destination list the
a1 record lands in missing with compareAmount -50000, not -5000, because
50.00 loses the separator (5000) and is then multiplied by ten. -/
theorem end_to_end_counterexample :
    (missingOf (fun s => s) c5Input []).map (fun x => x.compareAmount)
      = [some (-50000)]
    ∧ ((missingOf (fun s => s) c5Input []).all
        (fun x => x.compareAmount ≠ some (-5000))) = true := by
  decide

/-- C5 amended: a2 is filtered out entirely (2019 matches no relevant year),
a1 is the sole element of missing, with shortId the fingerprint of a1 and
compareAmount -50000. -/
theorem end_to_end_amended (sh : String → String) :
    changedOf sh c5Input [] = []
    ∧ missingOf sh c5Input [] = [c5A1Norm sh]
    ∧ (∀ x ∈ changedOf sh c5Input [], x.id = "a1")
    ∧ (∀ x ∈ missingOf sh c5Input [], x.id = "a1") := by
  have h1 : changedOf sh c5Input [] = [] := rfl
  have h2 : missingOf sh c5Input [] = [c5A1Norm sh] := rfl
  refine ⟨h1, h2, ?_, ?_⟩
  · intro x hx
    rw [h1] at hx
    cases hx
  · intro x hx
    rw [h2] at hx
    obtain rfl := List.mem_singleton.mp hx
    rfl

/-- Counterexample for C6 as stated: the amount string abc is malformed,
yet calcDiff raises no error; the record flows through classification and
lands in missing with a NaN compareAmount. -/
theorem malformed_amount_counterexample :
    compareAmount "abc" = none
    ∧ missingOf (fun s => s) [⟨"b", ⟨"2018-01-02"⟩, "abc", "t"⟩] []
        = [{ id := "b", date := "2018-01-02", amount := "abc", title := "t",
             shortId := "b", compareAmount := none, original := none }] := by
  decide

/-- C6 amended: a malformed amount makes parseInt return NaN (none); no
error is raised and no record is dropped for it.  The record never equality
matches any destination transaction, so when it passes the date filter it
proceeds through classification and lands in changed or in missing. -/
theorem malformed_amount_flow (sh : String → String) (input : List InputRecord)
    (ts : List RawTxn) (r : InputRecord) (hr : r ∈ input)
    (hnan : compareAmount r.amount = none)
    (hdate : dateFilterPass (normalizeRecord sh r) = true) :
    (∀ t : RawTxn, eqMatch (normalizeRecord sh r) t = false)
    ∧ (({ normalizeRecord sh r with
            original := ts.find? (fpMatch (normalizeRecord sh r)) } : NormRecord)
          ∈ changedOf sh input ts
       ∨ ({ normalizeRecord sh r with
            original := ts.find? (fpMatch (normalizeRecord sh r)) } : NormRecord)
          ∈ missingOf sh input ts) := by
  have hcnone : (normalizeRecord sh r).compareAmount = none := hnan
  have heqF : ∀ t : RawTxn, eqMatch (normalizeRecord sh r) t = false :=
    fun t => eqMatch_false_of_none hcnone t
  refine ⟨heqF, ?_⟩
  have hmem : ({ normalizeRecord sh r with
      original := ts.find? (fpMatch (normalizeRecord sh r)) } : NormRecord)
        ∈ differentOf sh input ts :=
    mem_differentOf_iff.mpr
      ⟨normalizeRecord sh r, mem_dateFiltered_of hr hdate,
       List.find?_eq_none.mpr (fun a _ => by simp [heqF a]), rfl⟩
  cases ho : ts.find? (fpMatch (normalizeRecord sh r)) with
  | some u =>
    left
    unfold changedOf
    rw [ho] at hmem
    exact List.mem_filter.mpr ⟨hmem, rfl⟩
  | none =>
    right
    unfold missingOf
    rw [ho] at hmem
    exact List.mem_filter.mpr ⟨hmem, rfl⟩

def c6R : InputRecord := ⟨"x9", ⟨"2018-07-07"⟩, "abc", "bad"⟩

/-- Witness for the amended C6 at the malformed amount abc. -/
theorem malformed_amount_flow_witness :
    c6R ∈ [c6R]
    ∧ compareAmount c6R.amount = none
    ∧ dateFilterPass (normalizeRecord (fun s => s) c6R) = true
    ∧ ((∀ t : RawTxn, eqMatch (normalizeRecord (fun s => s) c6R) t = false)
       ∧ (({ normalizeRecord (fun s => s) c6R with
              original := ([] : List RawTxn).find? (fpMatch (normalizeRecord (fun s => s) c6R)) } : NormRecord)
            ∈ changedOf (fun s => s) [c6R] []
          ∨ ({ normalizeRecord (fun s => s) c6R with
              original := ([] : List RawTxn).find? (fpMatch (normalizeRecord (fun s => s) c6R)) } : NormRecord)
            ∈ missingOf (fun s => s) [c6R] [])) :=
  ⟨by decide, by decide, by decide,
   malformed_amount_flow (fun s => s) [c6R] [] c6R (by decide) (by decide) (by decide)⟩

/-- Counterexample for C7 as stated: with no account named Checking,
calcDiff fails with the TypeError thrown by the property access account.id
on undefined, not with an AccountNotFound value carrying the available
account names; the embedded error type, read off the source, has no such
constructor or payload. -/
theorem account_missing_counterexample :
    calcDiff (fun s => s) "Checking" []
        [{ account_name := "Other", id := "x" }] []
      = .error (.typeError "Cannot read property id of undefined") := rfl

/-- C7 amended: when the account lookup finds nothing the run aborts before
any matching output is produced, but with a plain TypeError (property access
on undefined) carrying no list of available account names. -/
theorem account_missing_typeerror (sh : String → String) (accountName : String)
    (input : List InputRecord) (accounts : List Account) (bts : List RawTxn)
    (hno : accounts.find? (fun a => a.account_name = accountName) = none) :
    calcDiff sh accountName input accounts bts
      = .error (.typeError "Cannot read property id of undefined") := by
  unfold calcDiff
  rw [hno]

/-- Witness for the amended C7. -/
theorem account_missing_typeerror_witness :
    ([({ account_name := "Other", id := "x" } : Account)].find?
        (fun a => a.account_name = "Checking") = none)
    ∧ calcDiff (fun s => s) "Checking" []
          [{ account_name := "Other", id := "x" }] []
        = .error (.typeError "Cannot read property id of undefined") :=
  ⟨by decide,
   account_missing_typeerror (fun s => s) "Checking" []
     [{ account_name := "Other", id := "x" }] [] (by decide)⟩

def c8Rec : NormRecord :=
  { id := "r1", date := "2018-03-01", amount := "50.00", title := "Lunch",
    shortId := "r1", compareAmount := some (-50000), original := none }

/-- Counterexample for C8 as stated: the detailed memo built by ofxItem is
the tag, a spaced dash, then the title, which differs from the tag followed
directly by the title. -/
theorem ofx_memo_counterexample :
    (ofxItem (fun s => s) c8Rec true).memo = "#r1 - Lunch"
    ∧ "#r1 - Lunch" ≠ "#" ++ "r1" ++ " " ++ "Lunch" := by
  refine ⟨rfl, ?_⟩
  decide

/-- C8 amended: the planner emits exactly one creation operation per record,
in order; each operation carries the record id in the FITID import
fingerprint field and a detailed memo of the form hash mark, short hash of
the id, spaced dash, title. -/
theorem creation_operation_shape (sh : String → String)
    (charges : List NormRecord) :
    (generateOfxItems sh charges true).length = charges.length
    ∧ ∀ i r, charges.get? i = some r →
        (generateOfxItems sh charges true).get? i
          = some { trnType := "DEBIT",
                   dtPosted := removeAllDashes r.date ++ "000000[-3:GMT]",
                   amountStr := r.amount, fitId := r.id,
                   memo := "#" ++ sh r.id ++ " - " ++ r.title } := by
  constructor
  · unfold generateOfxItems
    exact List.length_map charges _
  · intro i r hir
    unfold generateOfxItems
    rw [List.get?_map, hir]
    rfl

/-- Witness for the amended C8 on a one-element missing list. -/
theorem creation_operation_shape_witness :
    ([c8Rec].get? 0 = some c8Rec)
    ∧ (generateOfxItems (fun s => s) [c8Rec] true).get? 0
        = some { trnType := "DEBIT",
                 dtPosted := removeAllDashes c8Rec.date ++ "000000[-3:GMT]",
                 amountStr := c8Rec.amount, fitId := c8Rec.id,
                 memo := "#" ++ (fun s : String => s) c8Rec.id ++ " - " ++ c8Rec.title } :=
  ⟨rfl, (creation_operation_shape (fun s => s) [c8Rec]).2 0 c8Rec rfl⟩

/-- C9: transactions whose memo is absent or empty are never selected by
the fingerprint search and never make it fail; a date-filtered record with
no equality match whose tag occurs in no nonempty memo is classified into
missing. -/
theorem missing_memo_safety (sh : String → String) (input : List InputRecord)
    (ts : List RawTxn) (r : InputRecord) (hr : r ∈ input)
    (hdate : dateFilterPass (normalizeRecord sh r) = true)
    (hnoeq : ∀ t ∈ ts, eqMatch (normalizeRecord sh r) t = false)
    (hnotag : ∀ t ∈ ts, memoTruthy t.memo = true →
        strIncludes (t.memo.getD "") ("#" ++ (normalizeRecord sh r).shortId) = false) :
    normalizeRecord sh r ∈ missingOf sh input ts
    ∧ ∀ t : RawTxn, (t.memo = none ∨ t.memo = some "") →
        fpMatch (normalizeRecord sh r) t = false := by
  have hfpF : ∀ t ∈ ts, fpMatch (normalizeRecord sh r) t = false := by
    intro t ht
    cases hmu : t.memo with
    | none => simp [fpMatch, hmu]
    | some m =>
      by_cases hme : m = ""
      · simp [fpMatch, hmu, hme]
      · have h2 := hnotag t ht (by simp [memoTruthy, hmu, hme])
        rw [hmu] at h2
        simp only [Option.getD_some] at h2
        simp [fpMatch, hmu, hme, h2]
  have hfind : ts.find? (fpMatch (normalizeRecord sh r)) = none :=
    List.find?_eq_none.mpr (fun t ht => by simp [hfpF t ht])
  constructor
  · have hmem : ({ normalizeRecord sh r with
        original := ts.find? (fpMatch (normalizeRecord sh r)) } : NormRecord)
          ∈ differentOf sh input ts :=
      mem_differentOf_iff.mpr
        ⟨normalizeRecord sh r, mem_dateFiltered_of hr hdate,
         List.find?_eq_none.mpr (fun t ht => by simp [hnoeq t ht]), rfl⟩
    rw [hfind] at hmem
    have hid : ({ normalizeRecord sh r with original := (none : Option RawTxn) } : NormRecord)
        = normalizeRecord sh r := rfl
    rw [hid] at hmem
    unfold missingOf
    exact List.mem_filter.mpr ⟨hmem, rfl⟩
  · intro t hto
    cases hto with
    | inl h => simp [fpMatch, h]
    | inr h => simp [fpMatch, h]

def c9R : InputRecord := ⟨"m1", ⟨"2017-02-02"⟩, "3.00", "x"⟩

def c9T1 : RawTxn := ⟨"t1", "2017-02-03", 5, none, "A"⟩

def c9T2 : RawTxn := ⟨"t2", "2017-02-04", 6, some "", "A"⟩

/-- Witness for C9: with one null memo and one empty memo in the
destination, the record lands in missing and neither transaction is a
fingerprint match. -/
theorem missing_memo_safety_witness :
    c9R ∈ [c9R]
    ∧ dateFilterPass (normalizeRecord (fun s => s) c9R) = true
    ∧ (∀ t ∈ [c9T1, c9T2], eqMatch (normalizeRecord (fun s => s) c9R) t = false)
    ∧ (∀ t ∈ [c9T1, c9T2], memoTruthy t.memo = true →
        strIncludes (t.memo.getD "") ("#" ++ (normalizeRecord (fun s => s) c9R).shortId) = false)
    ∧ (normalizeRecord (fun s => s) c9R ∈ missingOf (fun s => s) [c9R] [c9T1, c9T2]
       ∧ ∀ t : RawTxn, (t.memo = none ∨ t.memo = some "") →
          fpMatch (normalizeRecord (fun s => s) c9R) t = false) :=
  ⟨by decide, by decide, by decide, by decide,
   missing_memo_safety (fun s => s) [c9R] [c9T1, c9T2] c9R
     (by decide) (by decide) (by decide) (by decide)⟩

/-- Witness for the amended C5 with a concrete hash function. -/
theorem end_to_end_amended_witness :
    changedOf (fun s => s) c5Input [] = []
    ∧ missingOf (fun s => s) c5Input [] = [c5A1Norm (fun s => s)] :=
  ⟨(end_to_end_amended (fun s => s)).1, (end_to_end_amended (fun s => s)).2.1⟩
